import Mathlib

/-!
Verification of the graphbolt neighbor-sampling engine
(`graphbolt/cuda_sampling_ops.h`: `SampleNeighbors`, `InSubgraph`).

The repository ships only the declaration header for these two entry
points; the algorithmic behaviour is therefore modelled here from the
specification (CSC view, fanout resolution, the four selection
strategies, the two-pass driver collapsed to its functional result, and
subgraph assembly).  Machine integers are modelled as `Nat`/`Int`,
tensors as lists, probabilities/weights as `ℚ`, randomness as explicit
deterministic streams supplied by the environment.
-/

namespace Graphbolt

/-- Modelled from the spec: a CSC graph view, `indptr` of length `N+1`
and `indices` of length `E`; the slice `[indptr i, indptr (i+1))` of
`indices` lists node `i`'s in-neighbors. -/
structure CSC where
  indptr : List Nat
  indices : List Nat
deriving DecidableEq

/-- Modelled from the spec: well-formedness of a CSC view — `indptr`
is nonempty, starts at 0, is non-decreasing, `indices` has length
`indptr.getLast` and its values are valid node ids below `N`. -/
def CSC.WellFormed (g : CSC) : Prop :=
  0 < g.indptr.length ∧
  g.indptr.getD 0 0 = 0 ∧
  (∀ k < g.indptr.length - 1, g.indptr.getD k 0 ≤ g.indptr.getD (k + 1) 0) ∧
  g.indices.length = g.indptr.getD (g.indptr.length - 1) 0 ∧
  (∀ x ∈ g.indices, x < g.indptr.length - 1)

instance wellFormedDec (g : CSC) : Decidable g.WellFormed :=
  decidable_of_iff (0 < g.indptr.length ∧ g.indptr.getD 0 0 = 0 ∧
    (∀ k < g.indptr.length - 1, g.indptr.getD k 0 ≤ g.indptr.getD (k + 1) 0) ∧
    g.indices.length = g.indptr.getD (g.indptr.length - 1) 0 ∧
    (∀ x ∈ g.indices, x < g.indptr.length - 1)) Iff.rfl

/-- Modelled from the spec: the true degree of node `i`,
`indptr[i+1] - indptr[i]`. -/
def degree (g : CSC) (i : Nat) : Nat :=
  g.indptr.getD (i + 1) 0 - g.indptr.getD i 0

/-- Modelled from the spec: the absolute positions (into `indices`) of
node `i`'s in-edges, i.e. the interval `[indptr i, indptr (i+1))`. -/
def slicePositions (g : CSC) (i : Nat) : List Nat :=
  List.range' (g.indptr.getD i 0) (degree g i)

/-- Modelled from the spec: the neighbor (hashed destination) id stored
at absolute edge position `p`. -/
def dstOf (g : CSC) (p : Nat) : Nat :=
  g.indices.getD p 0

/-- Modelled from the spec: the output structure — a CSC-shaped
sampled subgraph with optional original edge ids and edge types. -/
structure FusedSampledSubgraph where
  indptr : List Nat
  indices : List Nat
  original_edge_ids : Option (List Nat)
  type_per_edge : Option (List Nat)
deriving DecidableEq

/-- Modelled from the spec: the error taxonomy relevant to the modelled
operations (`AllocationError` concerns the host allocator and is outside
the functional model). -/
inductive SampleError where
  | ConfigError : SampleError
  | RangeError : SampleError
deriving DecidableEq

/-- Modelled from the spec: the caller-supplied arguments of
`SampleNeighbors` (tensors as lists, the optional random seed fixed to a
`Nat`, `seed2_contribution` as a rational). -/
structure Args where
  nodes : Option (List Nat)
  fanouts : List Int
  replace : Bool
  layer : Bool
  return_eids : Bool
  type_per_edge : Option (List Nat)
  probs_or_mask : Option (List ℚ)
  random_seed : Nat
  seed2_contribution : ℚ

/-- Modelled from the spec: the randomness/hash environment.  Per-node
random streams (`rng`, `vdraw`) are indexed by (seed-node position,
group, step); `wkey` is the realized per-edge key of the weighted
reservoir scheme; `h1`/`h2` are the deterministic hashes used by the
Labor strategy, mapping (random seed, destination id) to a positive
value standing for the negative logarithm of a uniform draw. -/
structure Env where
  rng : Nat → Nat → Nat → Nat
  vdraw : Nat → Nat → Nat → ℚ
  wkey : Nat → ℚ
  h1 : Nat → Nat → ℚ
  h2 : Nat → Nat → ℚ

/-- Modelled from the spec: the per-edge weight view — `probs_or_mask`
entries when supplied, the constant weight 1 otherwise. -/
def wOf (probs : Option (List ℚ)) : Nat → ℚ :=
  match probs with
  | some ws => fun p => ws.getD p 0
  | none => fun _ => 1

/-- Modelled from the spec: the seed-node list, defaulting to
`0 .. N-1` when the caller supplies none. -/
def resolvedNodes (g : CSC) (a : Args) : List Nat :=
  a.nodes.getD (List.range (g.indptr.length - 1))

/-- Modelled from the spec: the number of distinct edge types, read off
`type_per_edge` (1 when absent). -/
def numDistinctTypes (tpe : Option (List Nat)) : Nat :=
  match tpe with
  | some t => t.dedup.length
  | none => 1

/-- Modelled from the spec: strict lexicographic comparison of edges by
key, ties broken by lowest original edge position. -/
def lexLT (key : Nat → ℚ) (a b : Nat) : Bool :=
  decide (key a < key b) || (decide (key a = key b) && decide (a < b))

/-- Modelled from the spec: the rank of candidate `p` — how many
candidates strictly precede it in (key, position) order. -/
def rankOf (key : Nat → ℚ) (cands : List Nat) (p : Nat) : Nat :=
  (cands.filter (fun q => lexLT key q p)).length

/-- Modelled from the spec: keep the `k` candidates with the smallest
keys (ties by lowest original position) — the threshold / top-k
selection shared by the Weighted and Labor strategies. -/
def selectTopK (key : Nat → ℚ) (k : Nat) (cands : List Nat) : List Nat :=
  cands.filter (fun p => decide (rankOf key cands p < k))

/-- Modelled from the spec: uniform sampling without replacement — a
truncated Fisher–Yates shuffle driven by the random stream `r`, taking one
uniformly chosen remaining element per step. -/
def uniformNoReplace (r : Nat → Nat) : Nat → List Nat → List Nat
  | 0, _ => []
  | _ + 1, [] => []
  | k + 1, xs =>
    let j := r k % xs.length
    xs.getD j 0 :: uniformNoReplace r k (xs.eraseIdx j)

/-- Modelled from the spec: inverse-CDF lookup over the cumulative
weight distribution of a candidate list — the first candidate whose
cumulative weight exceeds the draw `v`. -/
def cdfPickPos (w : Nat → ℚ) : List Nat → ℚ → Nat
  | [], _ => 0
  | [p], _ => p
  | p :: q :: ps, v => if v < w p then p else cdfPickPos w (q :: ps) (v - w p)

/-- Modelled from the spec: the blended Labor hash for a destination id
— a linear mixture of two independent deterministic hashes weighted by
`seed2_contribution`. -/
def blendOf (env : Env) (seed : Nat) (c : ℚ) (d : Nat) : ℚ :=
  (1 - c) * env.h1 seed d + c * env.h2 seed d

/-- Modelled from the spec: the Labor priority key of edge position `p`
— the blended hash of the edge's destination id divided by the edge
weight; it depends only on the shared seed, the blend coefficient, the
destination id and the weight, never on the seed-node set. -/
def laborKeyOf (env : Env) (g : CSC) (a : Args) (w : Nat → ℚ) (p : Nat) : ℚ :=
  blendOf env a.random_seed a.seed2_contribution (dstOf g p) / w p

/-- Modelled from the spec: per-(node, edge-type) candidate groups with
their fanout.  A single fanout applies to the whole slice collectively;
multiple fanouts partition the slice by edge-type value. -/
def groupsOf (g : CSC) (tpe : Option (List Nat)) (fanouts : List Int) (i : Nat) :
    List (List Nat × Int) :=
  if fanouts.length = 1 then
    [(slicePositions g i, fanouts.getD 0 0)]
  else
    match tpe with
    | some t =>
        (List.range fanouts.length).map
          (fun ty => ((slicePositions g i).filter (fun p => decide (t.getD p 0 = ty)),
                      fanouts.getD ty 0))
    | none => []

/-- Modelled from the spec: the per-group strategy dispatch.  The cap is
the group degree for fanout `-1`, else `min fanout degree` without
replacement and `fanout` with replacement; selection is Labor
(`layer = true`), Weighted (when `probs_or_mask` is supplied), or
uniform with/without replacement, all over the eligible (positive
weight) candidates where weights apply. -/
def selectGroup (env : Env) (g : CSC) (a : Args) (w : Nat → ℚ)
    (j gi : Nat) (cands : List Nat) (f : Int) : List Nat :=
  let d := cands.length
  let elig := cands.filter (fun p => decide (0 < w p))
  let capNR := if f = -1 then d else min f.toNat d
  let capR := if f = -1 then d else f.toNat
  if a.layer then
    selectTopK (laborKeyOf env g a w) capNR elig
  else if a.probs_or_mask.isSome then
    if a.replace then
      if elig.isEmpty then []
      else (List.range capR).map (fun n => cdfPickPos w elig (env.vdraw j gi n))
    else
      selectTopK (fun p => -(env.wkey p)) capNR elig
  else if a.replace then
    if cands.isEmpty then []
    else (List.range capR).map (fun n => cands.getD (env.rng j gi n % d) 0)
  else
    uniformNoReplace (env.rng j gi) capNR cands

/-- Modelled from the spec: the selection for group index `gi` of seed
node `i` placed at position `j` of the seed list. -/
def groupSelect (env : Env) (g : CSC) (a : Args) (w : Nat → ℚ) (j i gi : Nat) : List Nat :=
  let grp := (groupsOf g a.type_per_edge a.fanouts i).getD gi ([], 0)
  selectGroup env g a w j gi grp.1 grp.2

/-- Modelled from the spec: all edge positions kept for the seed node
`i` at seed-list position `j` — the concatenation of its per-group
selections. -/
def keptForNode (env : Env) (g : CSC) (a : Args) (w : Nat → ℚ) (j i : Nat) : List Nat :=
  (List.range (groupsOf g a.type_per_edge a.fanouts i).length).flatMap
    (groupSelect env g a w j i)

/-- Modelled from the spec: exclusive-prefix-sum offsets of the per-node
row lengths, starting at `acc` — the output `indptr`. -/
def offsetsFrom (acc : Nat) : List (List Nat) → List Nat
  | [] => [acc]
  | r :: rs => acc :: offsetsFrom (acc + r.length) rs

/-- Modelled from the spec: subgraph assembly — prefix-sum offsets as
the output `indptr`, neighbor ids passed through unchanged, original
edge ids iff requested, and a filtered `type_per_edge` copy iff the
input provided one. -/
def assemble (g : CSC) (tpe : Option (List Nat)) (ret : Bool)
    (rows : List (List Nat)) : FusedSampledSubgraph :=
  let flat := rows.flatten
  { indptr := offsetsFrom 0 rows
    indices := flat.map (fun p => g.indices.getD p 0)
    original_edge_ids := if ret then some flat else none
    type_per_edge := tpe.map (fun t => flat.map (fun p => t.getD p 0)) }

/-- Modelled from the spec: the configuration validation of
`SampleNeighbors` — fanout count is 1 or the number of distinct edge
types, every fanout is `≥ -1`, replacement and layer sampling are
mutually exclusive, multiple fanouts require `type_per_edge`, and
`probs_or_mask` must match the edge count. -/
def configOkB (g : CSC) (a : Args) : Bool :=
  (a.fanouts.length == 1 || a.fanouts.length == numDistinctTypes a.type_per_edge) &&
  a.fanouts.all (fun f => decide (-1 ≤ f)) &&
  !(a.replace && a.layer) &&
  (decide (a.fanouts.length ≤ 1) || a.type_per_edge.isSome) &&
  (match a.probs_or_mask with
   | some ws => ws.length == g.indices.length
   | none => true)

/-- Modelled from the spec: the range validation — seed node ids in
range, and edge-type values within the per-type fanout list when
multiple fanouts are given. -/
def rangeOkB (g : CSC) (a : Args) : Bool :=
  (resolvedNodes g a).all (fun i => decide (i + 1 < g.indptr.length)) &&
  (decide (a.fanouts.length ≤ 1) ||
   (a.type_per_edge.getD []).all (fun t => decide (t < a.fanouts.length)))

/-- Modelled from the spec: `SampleNeighbors` — eager validation
(configuration, then ranges), then per-seed-node per-group selection by
the dispatched strategy, then assembly into a `FusedSampledSubgraph`. -/
def sampleNeighbors (env : Env) (g : CSC) (a : Args) :
    Except SampleError FusedSampledSubgraph :=
  if configOkB g a then
    if rangeOkB g a then
      let nodesR := resolvedNodes g a
      Except.ok (assemble g a.type_per_edge a.return_eids
        ((List.range nodesR.length).map
          (fun j => keptForNode env g a (wOf a.probs_or_mask) j (nodesR.getD j 0))))
    else Except.error SampleError.RangeError
  else Except.error SampleError.ConfigError

/-- Modelled from the spec: `InSubgraph` — the degenerate sampling-free
case returning every inbound edge of the requested nodes, always with
original edge ids, failing only on an out-of-range node id. -/
def inSubgraph (g : CSC) (nodes : List Nat) (tpe : Option (List Nat)) :
    Except SampleError FusedSampledSubgraph :=
  if nodes.all (fun i => decide (i + 1 < g.indptr.length)) then
    Except.ok (assemble g tpe true (nodes.map (slicePositions g)))
  else Except.error SampleError.RangeError

/-- Modelled from the spec: the eligible part of a node's slice — the
positions of positive weight (the whole slice when no weights are
supplied). -/
def eligSlice (g : CSC) (probs : Option (List ℚ)) (i : Nat) : List Nat :=
  (slicePositions g i).filter (fun p => decide (0 < wOf probs p))

/-- Modelled from the spec: the row of original edge positions kept for
the `j`-th seed node, read back from the assembled output. -/
def rowKept (s : FusedSampledSubgraph) (j : Nat) : List Nat :=
  ((s.original_edge_ids.getD []).drop (s.indptr.getD j 0)).take
    (s.indptr.getD (j + 1) 0 - s.indptr.getD j 0)

/-- Modelled from the spec: the declarative form of the malformed
configurations on which `SampleNeighbors` must fail with
`ConfigError` — fanout-list length neither 1 nor the number of distinct
edge types, a fanout below `-1`, replacement combined with layer
sampling, multiple fanouts without `type_per_edge`, or a
`probs_or_mask` length differing from the edge count. -/
def configBad (g : CSC) (a : Args) : Prop :=
  (a.fanouts.length ≠ 1 ∧ a.fanouts.length ≠ numDistinctTypes a.type_per_edge) ∨
  (∃ f ∈ a.fanouts, f < -1) ∨
  (a.replace = true ∧ a.layer = true) ∨
  (1 < a.fanouts.length ∧ a.type_per_edge = none) ∨
  (∃ ws, a.probs_or_mask = some ws ∧ ws.length ≠ g.indices.length)

/-- Modelled from the spec: what a fully assembled output must provide
for a seed list of length `n` — an `indptr` of length `n + 1` starting
at 0 and ending at the kept-edge count, original edge ids exactly when
requested, and an aligned `type_per_edge` copy exactly when the input
carried types. -/
def completeOutput (n : Nat) (ret tp : Bool) (s : FusedSampledSubgraph) : Prop :=
  s.indptr.length = n + 1 ∧
  s.indptr.getD 0 0 = 0 ∧
  s.indptr.getD (s.indptr.length - 1) 0 = s.indices.length ∧
  (ret = true ↔ ∃ E, s.original_edge_ids = some E ∧ E.length = s.indices.length) ∧
  (tp = true ↔ ∃ T, s.type_per_edge = some T ∧ T.length = s.indices.length)

/-- Modelled from the spec: the Labor key assignment when the blended
hash value of the distinguished destination `d` is `x` and every other
destination keeps its hash `base` — the probability space of the
correlation property ranges over `x`. -/
def keyWithAt (base : Nat → ℚ) (g : CSC) (w : Nat → ℚ) (d : Nat) (x : ℚ) (p : Nat) : ℚ :=
  (if dstOf g p = d then x else base (dstOf g p)) / w p

/-- Modelled from the spec: the event that a Labor call with candidate
slice `cands` and fanout `k` keeps the edge `p` when destination `d`'s
blended hash value is `x`. -/
def laborSelects (base : Nat → ℚ) (g : CSC) (w : Nat → ℚ) (d k : Nat)
    (cands : List Nat) (p : Nat) (x : ℚ) : Prop :=
  p ∈ selectTopK (keyWithAt base g w d x) k cands

instance laborSelectsDec (base : Nat → ℚ) (g : CSC) (w : Nat → ℚ) (d k : Nat)
    (cands : List Nat) (p : Nat) : DecidablePred (laborSelects base g w d k cands p) :=
  fun x => inferInstanceAs (Decidable (p ∈ selectTopK (keyWithAt base g w d x) k cands))

/-- Modelled from the spec: the subset of the finite hash-value space
`S` on which a Labor call keeps edge `p` of destination `d`. -/
def corrEvent (base : Nat → ℚ) (g : CSC) (w : Nat → ℚ) (d k : Nat)
    (cands : List Nat) (p : Nat) (S : Finset ℚ) : Finset ℚ :=
  S.filter (laborSelects base g w d k cands p)

/-- Concrete 4-node CSC graph of the spec's concrete scenario:
`indptr = [0,2,4,6,6]`, `indices = [1,2,0,2,0,1]`. -/
def gC : CSC := ⟨[0, 2, 4, 6, 6], [1, 2, 0, 2, 0, 1]⟩

/-- Concrete 2-node CSC graph with a single 2-edge slice. -/
def gD : CSC := ⟨[0, 2, 2], [0, 1]⟩

/-- Concrete randomness environment used by witnesses. -/
def envC : Env :=
  ⟨fun _ _ _ => 0, fun _ _ _ => 0, fun _ => 0,
   fun _ d => (d : ℚ) + 1, fun _ d => (d : ℚ) + 2⟩

/-- Second concrete randomness environment, sharing the Labor hashes of
`envC` but with different ambient random streams. -/
def envD : Env :=
  ⟨fun _ _ n => n + 1, fun _ _ n => (n : ℚ) + 1, fun p => (p : ℚ),
   fun _ d => (d : ℚ) + 1, fun _ d => (d : ℚ) + 2⟩

/-- Concrete uniform no-replacement call on `gC` (the spec's concrete
scenario: fanout 1, all nodes). -/
def aC1 : Args := ⟨some [0, 1, 2, 3], [1], false, false, true, none, none, 0, 0⟩

/-- Concrete weighted call on `gC` with a zero-weight mask entry. -/
def aC3 : Args :=
  ⟨some [0, 1, 2, 3], [1], false, false, true, none, some [1, 0, 1, 1, 0, 1], 0, 0⟩

/-- Concrete fanout `-1` weighted call on `gD` whose mask disables edge
position 0. -/
def aC4 : Args := ⟨some [0], [-1], false, false, true, none, some [0, 1], 0, 0⟩

/-- Output of the call `(envC, gD, aC4)`. -/
def subC4 : FusedSampledSubgraph := ⟨[0, 1], [1], some [1], none⟩

/-- Concrete layer-sampling call on `gC`. -/
def aC6 : Args := ⟨some [0, 1], [2], false, true, true, none, none, 7, 0⟩

/-- Concrete fanout-free base call on `gD` used for the fanout
equivalence witness. -/
def aC10 : Args := ⟨some [0], [-1], false, false, true, none, none, 0, 0⟩

theorem lexLT_irrefl (key : Nat → ℚ) (a : Nat) : lexLT key a a = false := by
  simp [lexLT]

theorem lexLT_trans {key : Nat → ℚ} {a b c : Nat}
    (h1 : lexLT key a b = true) (h2 : lexLT key b c = true) : lexLT key a c = true := by
  simp only [lexLT, Bool.or_eq_true, Bool.and_eq_true, decide_eq_true_eq] at h1 h2 ⊢
  rcases h1 with h1 | ⟨h1e, h1l⟩ <;> rcases h2 with h2 | ⟨h2e, h2l⟩
  · exact Or.inl (lt_trans h1 h2)
  · exact Or.inl (by rw [← h2e]; exact h1)
  · exact Or.inl (by rw [h1e]; exact h2)
  · exact Or.inr ⟨h1e.trans h2e, lt_trans h1l h2l⟩

theorem lexLT_total {key : Nat → ℚ} {a b : Nat} (h : a ≠ b) :
    lexLT key a b = true ∨ lexLT key b a = true := by
  simp only [lexLT, Bool.or_eq_true, Bool.and_eq_true, decide_eq_true_eq]
  rcases lt_trichotomy (key a) (key b) with hk | hk | hk
  · exact Or.inl (Or.inl hk)
  · rcases Nat.lt_or_ge a b with hab | hab
    · exact Or.inl (Or.inr ⟨hk, hab⟩)
    · exact Or.inr (Or.inr ⟨hk.symm, lt_of_le_of_ne hab (Ne.symm h)⟩)
  · exact Or.inr (Or.inl hk)

theorem rankOf_lt_length {key : Nat → ℚ} {cands : List Nat} {p : Nat} (hp : p ∈ cands) :
    rankOf key cands p < cands.length := by
  unfold rankOf
  rcases Nat.lt_or_ge (cands.filter (fun q => lexLT key q p)).length cands.length with h | h
  · exact h
  · exfalso
    have heq : cands.filter (fun q => lexLT key q p) = cands :=
      (List.filter_sublist cands).eq_of_length
        (le_antisymm (List.length_filter_le _ cands) h)
    have := List.filter_eq_self.mp heq p hp
    rw [lexLT_irrefl] at this
    exact Bool.false_ne_true this

theorem selectTopK_subset {key : Nat → ℚ} {k : Nat} {cands : List Nat} :
    selectTopK key k cands ⊆ cands :=
  (List.filter_sublist cands).subset

theorem selectTopK_nodup {key : Nat → ℚ} {k : Nat} {cands : List Nat}
    (h : cands.Nodup) : (selectTopK key k cands).Nodup :=
  h.filter _

theorem selectTopK_of_le {key : Nat → ℚ} {k : Nat} {cands : List Nat}
    (h : cands.length ≤ k) : selectTopK key k cands = cands := by
  unfold selectTopK
  refine List.filter_eq_self.mpr (fun p hp => ?_)
  simp only [decide_eq_true_eq]
  exact lt_of_lt_of_le (rankOf_lt_length hp) h

/-- Finset form of the rank of a candidate, used for counting. -/
theorem rankOf_eq_card {key : Nat → ℚ} {cands : List Nat} (h : cands.Nodup) (p : Nat) :
    rankOf key cands p = (cands.toFinset.filter (fun q => lexLT key q p = true)).card := by
  unfold rankOf
  have h1 : (cands.filter (fun q => lexLT key q p)).toFinset.card
      = (cands.filter (fun q => lexLT key q p)).length :=
    List.toFinset_card_of_nodup (h.filter _)
  rw [← h1, List.toFinset_filter]

theorem rankOf_strict_mono {key : Nat → ℚ} {cands : List Nat} (h : cands.Nodup)
    {p q : Nat} (hp : p ∈ cands) (hlt : lexLT key p q = true) :
    rankOf key cands p < rankOf key cands q := by
  rw [rankOf_eq_card h, rankOf_eq_card h]
  apply Finset.card_lt_card
  rw [Finset.ssubset_iff_of_subset]
  · exact ⟨p, by simp [List.mem_toFinset, hp, hlt], by simp [lexLT_irrefl]⟩
  · intro x hx
    simp only [Finset.mem_filter, List.mem_toFinset] at hx ⊢
    exact ⟨hx.1, lexLT_trans hx.2 hlt⟩

theorem rankOf_injOn {key : Nat → ℚ} {cands : List Nat} (h : cands.Nodup)
    {p q : Nat} (hp : p ∈ cands) (hq : q ∈ cands)
    (heq : rankOf key cands p = rankOf key cands q) : p = q := by
  by_contra hne
  rcases @lexLT_total key p q hne with hlt | hlt
  · exact absurd heq (Nat.ne_of_lt (rankOf_strict_mono h hp hlt))
  · exact absurd heq.symm (Nat.ne_of_lt (rankOf_strict_mono h hq hlt))

/-- The ranks of a nodup candidate list are exactly `0 .. n-1`. -/
theorem rankOf_image {key : Nat → ℚ} {cands : List Nat} (h : cands.Nodup) :
    cands.toFinset.image (rankOf key cands) = Finset.range cands.length := by
  apply Finset.eq_of_subset_of_card_le
  · intro r hr
    simp only [Finset.mem_image, List.mem_toFinset] at hr
    obtain ⟨p, hp, rfl⟩ := hr
    exact Finset.mem_range.mpr (rankOf_lt_length hp)
  · rw [Finset.card_range,
      Finset.card_image_of_injOn
        (fun p hp q hq => rankOf_injOn h (List.mem_toFinset.mp hp) (List.mem_toFinset.mp hq)),
      List.toFinset_card_of_nodup h]

theorem selectTopK_length {key : Nat → ℚ} {k : Nat} {cands : List Nat} (h : cands.Nodup) :
    (selectTopK key k cands).length = min k cands.length := by
  unfold selectTopK
  have hnd : (cands.filter (fun p => decide (rankOf key cands p < k))).Nodup := h.filter _
  rw [← List.toFinset_card_of_nodup hnd, List.toFinset_filter]
  have himg : (cands.toFinset.filter (fun p => decide (rankOf key cands p < k) = true)).card
      = ((cands.toFinset.filter (fun p => rankOf key cands p < k)).image
          (rankOf key cands)).card := by
    rw [Finset.card_image_of_injOn
      (fun p hp q hq => rankOf_injOn h
        (List.mem_toFinset.mp (Finset.filter_subset _ _ hp))
        (List.mem_toFinset.mp (Finset.filter_subset _ _ hq)))]
    simp
  have hswap : (cands.toFinset.filter (fun a => rankOf key cands a < k)).image
        (rankOf key cands)
      = (cands.toFinset.image (rankOf key cands)).filter (fun r => r < k) :=
    (Finset.filter_image (p := fun r => r < k)).symm
  rw [himg, hswap, rankOf_image h]
  have hrange : (Finset.range cands.length).filter (fun r => r < k)
      = Finset.range (min k cands.length) := by
    ext r
    simp only [Finset.mem_filter, Finset.mem_range, lt_min_iff]
    exact ⟨fun ⟨h1, h2⟩ => ⟨h2, h1⟩, fun ⟨h1, h2⟩ => ⟨h2, h1⟩⟩
  rw [hrange, Finset.card_range]

theorem selectTopK_length_le {key : Nat → ℚ} {k : Nat} {cands : List Nat} (h : cands.Nodup) :
    (selectTopK key k cands).length ≤ k := by
  rw [selectTopK_length h]
  exact Nat.min_le_left _ _

/-- Lowering the key of one candidate while the other keys are unchanged
can only lower that candidate's rank. -/
theorem rankOf_mono {key key' : Nat → ℚ} {cands : List Nat} {p : Nat}
    (hp : key' p ≤ key p) (hq : ∀ q ∈ cands, q ≠ p → key' q = key q) :
    rankOf key' cands p ≤ rankOf key cands p := by
  unfold rankOf
  rw [← List.countP_eq_length_filter, ← List.countP_eq_length_filter]
  apply List.countP_mono_left
  intro q hqm hql
  simp only at hql ⊢
  by_cases hqp : q = p
  · subst hqp
    rw [lexLT_irrefl] at hql
    exact absurd hql Bool.false_ne_true
  · have hkq := hq q hqm hqp
    simp only [lexLT, Bool.or_eq_true, Bool.and_eq_true, decide_eq_true_eq] at hql ⊢
    rcases hql with h1 | ⟨h1, h2⟩
    · exact Or.inl (lt_of_lt_of_le (hkq ▸ h1) hp)
    · rcases lt_or_eq_of_le (le_trans (le_of_eq h1) hp) with h3 | h3
      · exact Or.inl (hkq ▸ h3)
      · exact Or.inr ⟨hkq ▸ h3, h2⟩

/-- Monotonicity of top-k selection: lowering one candidate's key while
keeping the others cannot evict that candidate. -/
theorem selectTopK_mono {key key' : Nat → ℚ} {k : Nat} {cands : List Nat} {p : Nat}
    (hp : key' p ≤ key p) (hq : ∀ q ∈ cands, q ≠ p → key' q = key q)
    (hmem : p ∈ selectTopK key k cands) : p ∈ selectTopK key' k cands := by
  unfold selectTopK at hmem ⊢
  rw [List.mem_filter] at hmem ⊢
  refine ⟨hmem.1, ?_⟩
  have h2 := hmem.2
  simp only [decide_eq_true_eq] at h2 ⊢
  exact lt_of_le_of_lt (rankOf_mono hp hq) h2

theorem eraseIdx_cons_perm {xs : List Nat} {j : Nat} (h : j < xs.length) :
    List.Perm (xs.getD j 0 :: xs.eraseIdx j) xs := by
  rw [List.getD_eq_getElem _ _ h, List.eraseIdx_eq_take_drop_succ]
  have h1 : List.Perm (xs[j] :: (xs.take j ++ xs.drop (j + 1)))
      (xs.take j ++ xs[j] :: xs.drop (j + 1)) := List.perm_middle.symm
  have h2 : xs.take j ++ xs[j] :: xs.drop (j + 1) = xs := by
    rw [List.getElem_cons_drop]
    exact List.take_append_drop j xs
  refine h1.trans ?_
  rw [h2]

theorem getD_not_mem_eraseIdx {xs : List Nat} {j : Nat} (hnd : xs.Nodup)
    (h : j < xs.length) : xs.getD j 0 ∉ xs.eraseIdx j := by
  have hx : xs.take j ++ xs[j] :: xs.drop (j + 1) = xs := by
    rw [List.getElem_cons_drop]
    exact List.take_append_drop j xs
  rw [List.getD_eq_getElem _ _ h, List.eraseIdx_eq_take_drop_succ]
  rw [← hx] at hnd
  obtain ⟨h1, h2, hdisj⟩ := List.nodup_append.mp hnd
  intro hmem
  rcases List.mem_append.mp hmem with hm | hm
  · exact hdisj hm (List.mem_cons_self _ _)
  · exact (List.nodup_cons.mp h2).1 hm

theorem uniformNoReplace_subset (r : Nat → Nat) :
    ∀ (k : Nat) (xs : List Nat), uniformNoReplace r k xs ⊆ xs := by
  intro k
  induction k with
  | zero => intro xs; simp [uniformNoReplace]
  | succ k ih =>
    intro xs
    match xs with
    | [] => simp [uniformNoReplace]
    | x :: xs' =>
      simp only [uniformNoReplace]
      refine List.cons_subset.mpr ⟨?_, ?_⟩
      · have hj : (r k % (x :: xs').length) < (x :: xs').length :=
          Nat.mod_lt _ (by simp)
        rw [List.getD_eq_getElem _ _ hj]
        exact List.getElem_mem hj
      · exact (ih _).trans (List.eraseIdx_subset _ _)

theorem uniformNoReplace_length (r : Nat → Nat) :
    ∀ (k : Nat) (xs : List Nat), (uniformNoReplace r k xs).length = min k xs.length := by
  intro k
  induction k with
  | zero => intro xs; simp [uniformNoReplace]
  | succ k ih =>
    intro xs
    match xs with
    | [] => simp [uniformNoReplace]
    | x :: xs' =>
      simp only [uniformNoReplace, List.length_cons, ih]
      have hj : r k % (xs'.length + 1) < (x :: xs').length := Nat.mod_lt _ (by omega)
      rw [List.length_eraseIdx_of_lt hj]
      simp only [List.length_cons]
      omega

theorem uniformNoReplace_nodup (r : Nat → Nat) :
    ∀ (k : Nat) (xs : List Nat), xs.Nodup → (uniformNoReplace r k xs).Nodup := by
  intro k
  induction k with
  | zero => intro xs _; simp [uniformNoReplace]
  | succ k ih =>
    intro xs hnd
    match xs with
    | [] => simp [uniformNoReplace]
    | x :: xs' =>
      simp only [uniformNoReplace]
      have hj : (r k % (x :: xs').length) < (x :: xs').length := Nat.mod_lt _ (by simp)
      refine List.nodup_cons.mpr ⟨?_, ih _ (hnd.eraseIdx _)⟩
      intro hmem
      exact getD_not_mem_eraseIdx hnd hj (uniformNoReplace_subset r k _ hmem)

theorem uniformNoReplace_perm (r : Nat → Nat) :
    ∀ (k : Nat) (xs : List Nat), xs.length ≤ k →
      List.Perm (uniformNoReplace r k xs) xs := by
  intro k
  induction k with
  | zero =>
    intro xs h
    rw [List.length_eq_zero.mp (Nat.le_zero.mp h)]
    simp [uniformNoReplace]
  | succ k ih =>
    intro xs h
    match xs with
    | [] => simp [uniformNoReplace]
    | x :: xs' =>
      simp only [uniformNoReplace]
      have hj : (r k % (x :: xs').length) < (x :: xs').length := Nat.mod_lt _ (by simp)
      have hlen : ((x :: xs').eraseIdx (r k % (x :: xs').length)).length ≤ k := by
        rw [List.length_eraseIdx_of_lt hj]
        simp only [List.length_cons] at h ⊢
        omega
      exact (List.Perm.cons _ (ih _ hlen)).trans (eraseIdx_cons_perm hj)

theorem cdfPickPos_mem (w : Nat → ℚ) :
    ∀ (l : List Nat) (v : ℚ), l ≠ [] → cdfPickPos w l v ∈ l := by
  intro l
  induction l with
  | nil => intro v h; exact absurd rfl h
  | cons p ps ih =>
    intro v _
    cases ps with
    | nil => simp [cdfPickPos]
    | cons q ps' =>
      simp only [cdfPickPos]
      split
      · exact List.mem_cons_self _ _
      · exact List.mem_cons_of_mem _ (ih _ (by simp))

theorem slicePositions_length (g : CSC) (i : Nat) :
    (slicePositions g i).length = degree g i :=
  List.length_range' _ _ _

theorem slicePositions_nodup (g : CSC) (i : Nat) : (slicePositions g i).Nodup :=
  List.nodup_range' _ _

theorem mem_slicePositions {g : CSC} {i p : Nat} :
    p ∈ slicePositions g i ↔
      g.indptr.getD i 0 ≤ p ∧ p < g.indptr.getD i 0 + degree g i := by
  unfold slicePositions
  exact List.mem_range'_1

theorem getD_map_range {α : Type} (F : Nat → α) {n i : Nat} (d : α) (h : i < n) :
    ((List.range n).map F).getD i d = F i := by
  have hlen : i < ((List.range n).map F).length := by simp [h]
  rw [List.getD_eq_getElem _ _ hlen]
  simp

theorem groupsOf_cands_nodup (g : CSC) (tpe : Option (List Nat)) (fs : List Int)
    (i gi : Nat) : ((groupsOf g tpe fs i).getD gi ([], 0)).1.Nodup := by
  unfold groupsOf
  by_cases h1 : fs.length = 1
  · rw [if_pos h1]
    rcases Nat.eq_zero_or_pos gi with rfl | hg
    · exact slicePositions_nodup g i
    · rw [List.getD_eq_default _ _ (by simpa using hg)]
      exact List.nodup_nil
  · rw [if_neg h1]
    cases tpe with
    | none =>
      rw [List.getD_eq_default _ _ (Nat.zero_le _)]
      exact List.nodup_nil
    | some t =>
      by_cases h2 : gi < fs.length
      · rw [getD_map_range _ _ h2]
        exact (slicePositions_nodup g i).filter _
      · rw [List.getD_eq_default _ _ (by simp only [List.length_map, List.length_range]; omega)]
        exact List.nodup_nil

theorem groupsOf_disjoint (g : CSC) (tpe : Option (List Nat)) (fs : List Int) (i : Nat)
    {gi gi' p : Nat} (hne : gi ≠ gi')
    (hp : p ∈ ((groupsOf g tpe fs i).getD gi ([], 0)).1) :
    p ∉ ((groupsOf g tpe fs i).getD gi' ([], 0)).1 := by
  intro hp'
  unfold groupsOf at hp hp'
  by_cases h1 : fs.length = 1
  · rw [if_pos h1] at hp hp'
    rcases Nat.eq_zero_or_pos gi with rfl | hg
    · rcases Nat.eq_zero_or_pos gi' with rfl | hg'
      · exact hne rfl
      · rw [List.getD_eq_default _ _ (by simpa using hg')] at hp'
        exact absurd hp' (List.not_mem_nil _)
    · rw [List.getD_eq_default _ _ (by simpa using hg)] at hp
      exact absurd hp (List.not_mem_nil _)
  · rw [if_neg h1] at hp hp'
    cases tpe with
    | none =>
      rw [List.getD_eq_default _ _ (Nat.zero_le _)] at hp
      exact absurd hp (List.not_mem_nil _)
    | some t =>
      by_cases h2 : gi < fs.length
      · by_cases h3 : gi' < fs.length
        · rw [getD_map_range _ _ h2] at hp
          rw [getD_map_range _ _ h3] at hp'
          have e1 := (List.mem_filter.mp hp).2
          have e2 := (List.mem_filter.mp hp').2
          simp only [decide_eq_true_eq] at e1 e2
          exact hne (e1.symm.trans e2)
        · rw [List.getD_eq_default _ _
            (by simp only [List.length_map, List.length_range]; omega)] at hp'
          exact absurd hp' (List.not_mem_nil _)
      · rw [List.getD_eq_default _ _
          (by simp only [List.length_map, List.length_range]; omega)] at hp
        exact absurd hp (List.not_mem_nil _)

theorem flatMap_eq_nil_of {f : Nat → List Nat} :
    ∀ (l : List Nat), (∀ x ∈ l, f x = []) → l.flatMap f = []
  | [], _ => rfl
  | a :: l', h => by
    rw [List.flatMap_cons, h a (List.mem_cons_self _ _), List.nil_append]
    exact flatMap_eq_nil_of l' (fun x hx => h x (List.mem_cons_of_mem _ hx))

theorem flatMap_length_single {f : Nat → List Nat} :
    ∀ (l : List Nat), l.Nodup → ∀ gi ∈ l, (∀ x ∈ l, x ≠ gi → f x = []) →
      (l.flatMap f).length = (f gi).length
  | [], _, gi, hgi, _ => absurd hgi (List.not_mem_nil _)
  | a :: l', hnd, gi, hgi, h => by
    rw [List.flatMap_cons, List.length_append]
    rcases List.mem_cons.mp hgi with rfl | hgi'
    · have hnil : l'.flatMap f = [] := by
        apply flatMap_eq_nil_of
        intro x hx
        apply h x (List.mem_cons_of_mem _ hx)
        intro heq
        exact (List.nodup_cons.mp hnd).1 (heq ▸ hx)
      rw [hnil]
      simp
    · have hane : a ≠ gi := by
        intro heq
        exact (List.nodup_cons.mp hnd).1 (heq.symm ▸ hgi')
      rw [h a (List.mem_cons_self _ _) hane]
      simp only [List.length_nil, Nat.zero_add]
      exact flatMap_length_single l' (List.nodup_cons.mp hnd).2 gi hgi'
        (fun x hx hne2 => h x (List.mem_cons_of_mem _ hx) hne2)

theorem offsetsFrom_length :
    ∀ (acc : Nat) (rows : List (List Nat)), (offsetsFrom acc rows).length = rows.length + 1
  | _, [] => rfl
  | acc, r :: rs => by
    simp only [offsetsFrom, List.length_cons, offsetsFrom_length]

theorem offsetsFrom_getD :
    ∀ (acc : Nat) (rows : List (List Nat)) (j : Nat), j ≤ rows.length →
      (offsetsFrom acc rows).getD j 0 = acc + ((rows.take j).map List.length).sum
  | _, [], 0, _ => by simp [offsetsFrom]
  | _, [], _ + 1, h => by simp at h
  | _, _ :: _, 0, _ => by simp [offsetsFrom]
  | acc, r :: rs, j + 1, h => by
    simp only [offsetsFrom, List.getD_cons_succ, List.take_succ_cons, List.map_cons,
      List.sum_cons]
    rw [offsetsFrom_getD (acc + r.length) rs j (by simpa using h)]
    omega

theorem flatten_extract :
    ∀ (rows : List (List Nat)) (j : Nat), j < rows.length →
      (rows.flatten.drop (((rows.take j).map List.length).sum)).take
        (rows.getD j []).length = rows.getD j []
  | [], j, h => by simp at h
  | r :: rs, 0, _ => by
    simp only [List.take_zero, List.map_nil, List.sum_nil, List.drop_zero,
      List.flatten_cons, List.getD_cons_zero]
    exact List.take_left r rs.flatten
  | r :: rs, j + 1, h => by
    simp only [List.take_succ_cons, List.map_cons, List.sum_cons, List.flatten_cons,
      List.getD_cons_succ]
    rw [← List.drop_drop, List.drop_left]
    exact flatten_extract rs j (by simpa using h)

theorem bool_eq_false {b : Bool} (h : ¬b = true) : b = false := by
  cases b
  · rfl
  · exact absurd rfl h

theorem assemble_indptr (g : CSC) (tpe : Option (List Nat)) (ret : Bool)
    (rows : List (List Nat)) : (assemble g tpe ret rows).indptr = offsetsFrom 0 rows := rfl

theorem assemble_indices (g : CSC) (tpe : Option (List Nat)) (ret : Bool)
    (rows : List (List Nat)) :
    (assemble g tpe ret rows).indices = rows.flatten.map (fun p => g.indices.getD p 0) := rfl

theorem assemble_eids (g : CSC) (tpe : Option (List Nat)) (ret : Bool)
    (rows : List (List Nat)) :
    (assemble g tpe ret rows).original_edge_ids = if ret then some rows.flatten else none := rfl

theorem assemble_tpe (g : CSC) (tpe : Option (List Nat)) (ret : Bool)
    (rows : List (List Nat)) :
    (assemble g tpe ret rows).type_per_edge
      = tpe.map (fun t => rows.flatten.map (fun p => t.getD p 0)) := rfl

/-- Any successful `sampleNeighbors` output is the assembly of the
per-seed-node kept rows. -/
theorem sampleNeighbors_ok {env : Env} {g : CSC} {a : Args} {s : FusedSampledSubgraph}
    (h : sampleNeighbors env g a = Except.ok s) :
    s = assemble g a.type_per_edge a.return_eids
      ((List.range (resolvedNodes g a).length).map
        (fun j => keptForNode env g a (wOf a.probs_or_mask) j ((resolvedNodes g a).getD j 0))) := by
  unfold sampleNeighbors at h
  by_cases h1 : configOkB g a = true
  · rw [if_pos h1] at h
    by_cases h2 : rangeOkB g a = true
    · rw [if_pos h2] at h
      exact (Except.ok.inj h).symm
    · rw [if_neg h2] at h
      exact absurd h (by simp)
  · rw [if_neg h1] at h
    exact absurd h (by simp)

/-- Reading back the `j`-th row of an assembled output with edge ids. -/
theorem rowKept_assemble {g : CSC} {tpe : Option (List Nat)} {rows : List (List Nat)}
    {j : Nat} (hj : j < rows.length) :
    rowKept (assemble g tpe true rows) j = rows.getD j [] := by
  unfold rowKept
  rw [assemble_eids, assemble_indptr, if_pos rfl, Option.getD_some]
  have h0 : (offsetsFrom 0 rows).getD j 0 = ((rows.take j).map List.length).sum := by
    rw [offsetsFrom_getD 0 rows j (Nat.le_of_lt hj)]
    omega
  have h1 : (offsetsFrom 0 rows).getD (j + 1) 0 = ((rows.take (j + 1)).map List.length).sum := by
    rw [offsetsFrom_getD 0 rows (j + 1) hj]
    omega
  have htake : rows.take (j + 1) = rows.take j ++ [rows.getD j []] := by
    rw [List.take_succ, List.getElem?_eq_getElem hj, List.getD_eq_getElem _ _ hj]
    rfl
  have hdiff : ((rows.take (j + 1)).map List.length).sum
      - ((rows.take j).map List.length).sum = (rows.getD j []).length := by
    rw [htake]
    simp
  rw [h0, h1, hdiff]
  exact flatten_extract rows j hj

/-- The `j`-th output row of a successful call with edge ids is the kept
list of the `j`-th seed node. -/
theorem rowKept_eq {env : Env} {g : CSC} {a : Args} {s : FusedSampledSubgraph}
    (h : sampleNeighbors env g a = Except.ok s) (hret : a.return_eids = true)
    {j : Nat} (hj : j < (resolvedNodes g a).length) :
    rowKept s j
      = keptForNode env g a (wOf a.probs_or_mask) j ((resolvedNodes g a).getD j 0) := by
  have hs := sampleNeighbors_ok h
  rw [hret] at hs
  subst hs
  have hjr : j < ((List.range (resolvedNodes g a).length).map
      (fun j => keptForNode env g a (wOf a.probs_or_mask) j
        ((resolvedNodes g a).getD j 0))).length := by
    simpa using hj
  rw [rowKept_assemble hjr, getD_map_range _ _ hj]

/-- With a single fanout value, a node's kept list is the dispatch of the
single collective group over its full slice. -/
theorem keptForNode_homo {env : Env} {g : CSC} {a : Args} {w : Nat → ℚ} {j i : Nat}
    (h1 : a.fanouts.length = 1) :
    keptForNode env g a w j i
      = selectGroup env g a w j 0 (slicePositions g i) (a.fanouts.getD 0 0) := by
  have hg : groupsOf g a.type_per_edge a.fanouts i
      = [(slicePositions g i, a.fanouts.getD 0 0)] := by
    unfold groupsOf
    rw [if_pos h1]
  unfold keptForNode groupSelect
  rw [hg]
  simp only [List.length_cons, List.length_nil, List.range_succ, List.range_zero,
    List.nil_append, List.flatMap_cons, List.flatMap_nil, List.append_nil,
    List.getD_cons_zero]

theorem selectGroup_eq_layer {env : Env} {g : CSC} {a : Args} {w : Nat → ℚ}
    {j gi : Nat} {cands : List Nat} {f : Int} (hl : a.layer = true) :
    selectGroup env g a w j gi cands f
      = selectTopK (laborKeyOf env g a w)
          (if f = -1 then cands.length else min f.toNat cands.length)
          (cands.filter (fun p => decide (0 < w p))) := by
  unfold selectGroup
  rw [hl]
  rfl

theorem selectGroup_eq_weighted_nr {env : Env} {g : CSC} {a : Args} {w : Nat → ℚ}
    {j gi : Nat} {cands : List Nat} {f : Int} (hl : a.layer = false)
    (hp : a.probs_or_mask.isSome = true) (hr : a.replace = false) :
    selectGroup env g a w j gi cands f
      = selectTopK (fun p => -(env.wkey p))
          (if f = -1 then cands.length else min f.toNat cands.length)
          (cands.filter (fun p => decide (0 < w p))) := by
  unfold selectGroup
  rw [hl, hp, hr]
  rfl

theorem selectGroup_eq_weighted_r {env : Env} {g : CSC} {a : Args} {w : Nat → ℚ}
    {j gi : Nat} {cands : List Nat} {f : Int} (hl : a.layer = false)
    (hp : a.probs_or_mask.isSome = true) (hr : a.replace = true) :
    selectGroup env g a w j gi cands f
      = (if (cands.filter (fun p => decide (0 < w p))).isEmpty then []
         else (List.range (if f = -1 then cands.length else f.toNat)).map
           (fun n => cdfPickPos w (cands.filter (fun p => decide (0 < w p)))
             (env.vdraw j gi n))) := by
  unfold selectGroup
  rw [hl, hp, hr]
  rfl

theorem selectGroup_eq_uniform_nr {env : Env} {g : CSC} {a : Args} {w : Nat → ℚ}
    {j gi : Nat} {cands : List Nat} {f : Int} (hl : a.layer = false)
    (hp : a.probs_or_mask.isSome = false) (hr : a.replace = false) :
    selectGroup env g a w j gi cands f
      = uniformNoReplace (env.rng j gi)
          (if f = -1 then cands.length else min f.toNat cands.length) cands := by
  unfold selectGroup
  rw [hl, hp, hr]
  rfl

theorem selectGroup_eq_uniform_r {env : Env} {g : CSC} {a : Args} {w : Nat → ℚ}
    {j gi : Nat} {cands : List Nat} {f : Int} (hl : a.layer = false)
    (hp : a.probs_or_mask.isSome = false) (hr : a.replace = true) :
    selectGroup env g a w j gi cands f
      = (if cands.isEmpty then []
         else (List.range (if f = -1 then cands.length else f.toNat)).map
           (fun n => cands.getD (env.rng j gi n % cands.length) 0)) := by
  unfold selectGroup
  rw [hl, hp, hr]
  rfl

/-- Without replacement, every dispatched strategy keeps a subset of its
candidate group, without duplicates, of size at most the resolved cap. -/
theorem selectGroup_noReplace {env : Env} {g : CSC} {a : Args} {w : Nat → ℚ}
    {j gi : Nat} {cands : List Nat} {f : Int} (hr : a.replace = false)
    (hnd : cands.Nodup) :
    selectGroup env g a w j gi cands f ⊆ cands ∧
    (selectGroup env g a w j gi cands f).Nodup ∧
    (selectGroup env g a w j gi cands f).length
      ≤ (if f = -1 then cands.length else min f.toNat cands.length) := by
  by_cases hl : a.layer = true
  · rw [selectGroup_eq_layer hl]
    exact ⟨selectTopK_subset.trans (List.filter_sublist _).subset,
      selectTopK_nodup (hnd.filter _), selectTopK_length_le (hnd.filter _)⟩
  · have hl' := bool_eq_false hl
    by_cases hp : a.probs_or_mask.isSome = true
    · rw [selectGroup_eq_weighted_nr hl' hp hr]
      exact ⟨selectTopK_subset.trans (List.filter_sublist _).subset,
        selectTopK_nodup (hnd.filter _), selectTopK_length_le (hnd.filter _)⟩
    · have hp' := bool_eq_false hp
      rw [selectGroup_eq_uniform_nr hl' hp' hr]
      refine ⟨uniformNoReplace_subset _ _ _, uniformNoReplace_nodup _ _ _ hnd, ?_⟩
      rw [uniformNoReplace_length]
      exact Nat.min_le_left _ _

/-- With weights supplied, every kept edge has positive weight,
whatever the strategy. -/
theorem selectGroup_pos_weight {env : Env} {g : CSC} {a : Args} {w : Nat → ℚ}
    {j gi : Nat} {cands : List Nat} {f : Int} {p : Nat}
    (hp : a.probs_or_mask.isSome = true)
    (hmem : p ∈ selectGroup env g a w j gi cands f) : 0 < w p := by
  by_cases hl : a.layer = true
  · rw [selectGroup_eq_layer hl] at hmem
    have h2 := selectTopK_subset hmem
    have h3 := (List.mem_filter.mp h2).2
    simpa using h3
  · have hl' := bool_eq_false hl
    by_cases hrep : a.replace = true
    · rw [selectGroup_eq_weighted_r hl' hp hrep] at hmem
      by_cases he : (cands.filter (fun q => decide (0 < w q))).isEmpty = true
      · rw [if_pos he] at hmem
        exact absurd hmem (List.not_mem_nil _)
      · rw [if_neg he] at hmem
        obtain ⟨n, _, rfl⟩ := List.mem_map.mp hmem
        have hne : cands.filter (fun q => decide (0 < w q)) ≠ [] := by
          simpa using bool_eq_false he
        have hm2 := cdfPickPos_mem w _ (env.vdraw j gi n) hne
        have h3 := (List.mem_filter.mp hm2).2
        simpa using h3
    · have hrep' := bool_eq_false hrep
      rw [selectGroup_eq_weighted_nr hl' hp hrep'] at hmem
      have h2 := selectTopK_subset hmem
      have h3 := (List.mem_filter.mp h2).2
      simpa using h3

/-- A kept position of a node belongs to some group's selection. -/
theorem keptForNode_mem {env : Env} {g : CSC} {a : Args} {w : Nat → ℚ} {j i p : Nat}
    (hmem : p ∈ keptForNode env g a w j i) :
    ∃ gi, p ∈ groupSelect env g a w j i gi := by
  unfold keptForNode at hmem
  obtain ⟨gi, _, hp2⟩ := List.mem_flatMap.mp hmem
  exact ⟨gi, hp2⟩

/-- Without replacement, a node's kept positions are pairwise
distinct. -/
theorem keptForNode_nodup {env : Env} {g : CSC} {a : Args} {w : Nat → ℚ} {j i : Nat}
    (hr : a.replace = false) : (keptForNode env g a w j i).Nodup := by
  unfold keptForNode
  rw [List.nodup_flatMap]
  constructor
  · intro gi _
    exact (selectGroup_noReplace hr
      (groupsOf_cands_nodup g a.type_per_edge a.fanouts i gi)).2.1
  · refine (List.pairwise_lt_range _).imp ?_
    intro gi gi' hlt
    intro p hp hp'
    have h1 := (selectGroup_noReplace hr
      (groupsOf_cands_nodup g a.type_per_edge a.fanouts i gi)).1 hp
    have h2 := (selectGroup_noReplace hr
      (groupsOf_cands_nodup g a.type_per_edge a.fanouts i gi')).1 hp'
    exact groupsOf_disjoint g a.type_per_edge a.fanouts i (Nat.ne_of_lt hlt) h1 h2

/-- Without replacement, the kept edges of one group count at most the
resolved cap of that group. -/
theorem keptForNode_filter_group {env : Env} {g : CSC} {a : Args} {w : Nat → ℚ}
    {j i gi : Nat} (hr : a.replace = false)
    (hgi : gi < (groupsOf g a.type_per_edge a.fanouts i).length) :
    ((keptForNode env g a w j i).filter
        (fun p => decide (p ∈ ((groupsOf g a.type_per_edge a.fanouts i).getD gi ([], 0)).1))).length
      ≤ (if ((groupsOf g a.type_per_edge a.fanouts i).getD gi ([], 0)).2 = -1
         then ((groupsOf g a.type_per_edge a.fanouts i).getD gi ([], 0)).1.length
         else min ((groupsOf g a.type_per_edge a.fanouts i).getD gi ([], 0)).2.toNat
              ((groupsOf g a.type_per_edge a.fanouts i).getD gi ([], 0)).1.length) := by
  unfold keptForNode
  rw [List.filter_flatMap]
  rw [flatMap_length_single (List.range _) (List.nodup_range _) gi (List.mem_range.mpr hgi)]
  · calc ((groupSelect env g a w j i gi).filter _).length
        ≤ (groupSelect env g a w j i gi).length := List.length_filter_le _ _
      _ ≤ _ := (selectGroup_noReplace hr
          (groupsOf_cands_nodup g a.type_per_edge a.fanouts i gi)).2.2
  · intro gi' _ hne
    rw [List.filter_eq_nil_iff]
    intro p hp
    have h1 := (selectGroup_noReplace hr
      (groupsOf_cands_nodup g a.type_per_edge a.fanouts i gi')).1 hp
    have h2 := groupsOf_disjoint g a.type_per_edge a.fanouts i hne h1
    simpa using h2

/-- With a single fanout covering the node's degree (or `-1`) and no
replacement, the kept row is a permutation of the eligible slice. -/
theorem row_perm_elig {env : Env} {g : CSC} {a : Args} {s : FusedSampledSubgraph}
    {f : Int} {j : Nat}
    (h : sampleNeighbors env g a = Except.ok s) (hret : a.return_eids = true)
    (hr : a.replace = false) (hf : a.fanouts = [f])
    (hj : j < (resolvedNodes g a).length)
    (hcap : f = -1 ∨ (0 ≤ f ∧ degree g ((resolvedNodes g a).getD j 0) ≤ f.toNat)) :
    List.Perm (rowKept s j) (eligSlice g a.probs_or_mask ((resolvedNodes g a).getD j 0)) := by
  rw [rowKept_eq h hret hj]
  have h1 : a.fanouts.length = 1 := by rw [hf]; rfl
  have hf0 : a.fanouts.getD 0 0 = f := by rw [hf]; rfl
  rw [keptForNode_homo h1, hf0]
  have hcapEq : (if f = -1 then (slicePositions g ((resolvedNodes g a).getD j 0)).length
      else min f.toNat (slicePositions g ((resolvedNodes g a).getD j 0)).length)
      = (slicePositions g ((resolvedNodes g a).getD j 0)).length := by
    rcases hcap with rfl | ⟨hf0', hdeg⟩
    · rw [if_pos rfl]
    · have hne : ¬(f = -1) := by omega
      rw [if_neg hne, slicePositions_length]
      exact Nat.min_eq_right hdeg
  by_cases hl : a.layer = true
  · rw [selectGroup_eq_layer hl, hcapEq,
      selectTopK_of_le (List.length_filter_le _ _)]
    exact List.Perm.refl _
  · have hl' := bool_eq_false hl
    by_cases hp : a.probs_or_mask.isSome = true
    · rw [selectGroup_eq_weighted_nr hl' hp hr, hcapEq,
        selectTopK_of_le (List.length_filter_le _ _)]
      exact List.Perm.refl _
    · have hp' := bool_eq_false hp
      have hpn : a.probs_or_mask = none := Option.not_isSome_iff_eq_none.mp (by simp [hp'])
      have helig : eligSlice g a.probs_or_mask ((resolvedNodes g a).getD j 0)
          = slicePositions g ((resolvedNodes g a).getD j 0) := by
        rw [hpn]
        unfold eligSlice
        apply List.filter_eq_self.mpr
        intro q _
        simp only [wOf, decide_eq_true_eq]
        exact zero_lt_one
      rw [selectGroup_eq_uniform_nr hl' hp' hr, hcapEq, helig]
      exact uniformNoReplace_perm _ _ _ (Nat.le_refl _)

/-- Lowering the distinguished destination's hash value cannot evict its
edge from a Labor selection (the other candidates' keys are untouched
when no other candidate shares the destination). -/
theorem laborSelects_mono {base : Nat → ℚ} {g : CSC} {w : Nat → ℚ} {d k : Nat}
    {cands : List Nat} {p : Nat} (hd : dstOf g p = d)
    (hother : ∀ q ∈ cands, q ≠ p → dstOf g q ≠ d) (hw : 0 < w p)
    {x y : ℚ} (hxy : x ≤ y) (hy : laborSelects base g w d k cands p y) :
    laborSelects base g w d k cands p x := by
  unfold laborSelects at hy ⊢
  refine selectTopK_mono ?_ ?_ hy
  · unfold keyWithAt
    rw [if_pos hd, if_pos hd]
    exact div_le_div_of_nonneg_right hxy hw.le
  · intro q hq hqp
    unfold keyWithAt
    rw [if_neg (hother q hq hqp), if_neg (hother q hq hqp)]

/-- Two Labor selection events over the same destination hash value are
nested (both are lower threshold events). -/
theorem corrEvent_nested {base : Nat → ℚ} {g : CSC} {w : Nat → ℚ} {d k₁ k₂ : Nat}
    {cands₁ cands₂ : List Nat} {p₁ p₂ : Nat} {S : Finset ℚ}
    (hd₁ : dstOf g p₁ = d) (hd₂ : dstOf g p₂ = d)
    (ho₁ : ∀ q ∈ cands₁, q ≠ p₁ → dstOf g q ≠ d)
    (ho₂ : ∀ q ∈ cands₂, q ≠ p₂ → dstOf g q ≠ d)
    (hw₁ : 0 < w p₁) (hw₂ : 0 < w p₂) :
    corrEvent base g w d k₁ cands₁ p₁ S ⊆ corrEvent base g w d k₂ cands₂ p₂ S ∨
    corrEvent base g w d k₂ cands₂ p₂ S ⊆ corrEvent base g w d k₁ cands₁ p₁ S := by
  by_contra hc
  push_neg at hc
  obtain ⟨hab, hba⟩ := hc
  rw [Finset.not_subset] at hab hba
  obtain ⟨u, hu, hu'⟩ := hab
  obtain ⟨v, hv, hv'⟩ := hba
  unfold corrEvent at hu hv hu' hv'
  rw [Finset.mem_filter] at hu hv
  rcases le_total u v with huv | hvu
  · apply hu'
    rw [Finset.mem_filter]
    exact ⟨hu.1, laborSelects_mono hd₂ ho₂ hw₂ huv hv.2⟩
  · apply hv'
    rw [Finset.mem_filter]
    exact ⟨hv.1, laborSelects_mono hd₁ ho₁ hw₁ hvu hu.2⟩

/-- Nested events inside a finite space satisfy the positive-correlation
counting inequality. -/
theorem nested_card_ineq {A B S : Finset ℚ} (hA : A ⊆ S) (hB : B ⊆ S)
    (hn : A ⊆ B ∨ B ⊆ A) : A.card * B.card ≤ (A ∩ B).card * S.card := by
  rcases hn with h | h
  · rw [Finset.inter_eq_left.mpr h]
    exact Nat.mul_le_mul_left _ (Finset.card_le_card hB)
  · rw [Finset.inter_eq_right.mpr h, Nat.mul_comm]
    exact Nat.mul_le_mul_left _ (Finset.card_le_card hA)

/-- C1: for every seed node (the `j`-th requested node) and every
sampling strategy with `replace = false`, the number of kept edges lying
in the node's (node, edge-type) candidate group `gi` is at most
`min(fanout, true degree)` for that group — the group's degree when its
resolved fanout is `-1`, else the minimum of the fanout and the group's
degree. -/
theorem c1_degree_bound (env : Env) (g : CSC) (a : Args) (s : FusedSampledSubgraph)
    (j gi : Nat)
    (hr : a.replace = false) (hret : a.return_eids = true)
    (hok : sampleNeighbors env g a = Except.ok s)
    (hj : j < (resolvedNodes g a).length)
    (hgi : gi < (groupsOf g a.type_per_edge a.fanouts ((resolvedNodes g a).getD j 0)).length) :
    ((rowKept s j).filter (fun p => decide
        (p ∈ ((groupsOf g a.type_per_edge a.fanouts
          ((resolvedNodes g a).getD j 0)).getD gi ([], 0)).1))).length
      ≤ (if ((groupsOf g a.type_per_edge a.fanouts
              ((resolvedNodes g a).getD j 0)).getD gi ([], 0)).2 = -1
         then ((groupsOf g a.type_per_edge a.fanouts
              ((resolvedNodes g a).getD j 0)).getD gi ([], 0)).1.length
         else min ((groupsOf g a.type_per_edge a.fanouts
              ((resolvedNodes g a).getD j 0)).getD gi ([], 0)).2.toNat
             ((groupsOf g a.type_per_edge a.fanouts
              ((resolvedNodes g a).getD j 0)).getD gi ([], 0)).1.length) := by
  rw [rowKept_eq hok hret hj]
  exact keptForNode_filter_group hr hgi

/-- C2: for `replace = false`, no two edges kept for the same seed node
reference the same original edge position — each output row is a list
of pairwise distinct positions into the input `indices`. -/
theorem c2_distinct_positions (env : Env) (g : CSC) (a : Args)
    (s : FusedSampledSubgraph) (j : Nat)
    (hr : a.replace = false) (hret : a.return_eids = true)
    (hok : sampleNeighbors env g a = Except.ok s)
    (hj : j < (resolvedNodes g a).length) :
    (rowKept s j).Nodup := by
  rw [rowKept_eq hok hret hj]
  exact keptForNode_nodup hr

/-- C3: when `probs_or_mask` is supplied, an edge of weight exactly zero
is never present in the returned subgraph, for every fanout value and
for both replacement settings. -/
theorem c3_weighted_exclusion (env : Env) (g : CSC) (a : Args)
    (s : FusedSampledSubgraph) (ws : List ℚ) (E : List Nat) (p : Nat)
    (hw : a.probs_or_mask = some ws)
    (hok : sampleNeighbors env g a = Except.ok s)
    (hE : s.original_edge_ids = some E) (hp : p ∈ E) :
    ws.getD p 0 ≠ 0 := by
  have hs := sampleNeighbors_ok hok
  subst hs
  rw [assemble_eids] at hE
  by_cases hret : a.return_eids = true
  · rw [if_pos hret] at hE
    obtain ⟨row, hrow, hpr⟩ := List.mem_flatten.mp ((Option.some.inj hE).symm ▸ hp)
    obtain ⟨jx, _, hFeq⟩ := List.mem_map.mp hrow
    obtain ⟨gi, hgi⟩ := keptForNode_mem (hFeq.symm ▸ hpr)
    unfold groupSelect at hgi
    have hw0 : 0 < wOf a.probs_or_mask p :=
      selectGroup_pos_weight (by rw [hw]; rfl) hgi
    rw [hw] at hw0
    exact ne_of_gt hw0
  · rw [if_neg hret] at hE
    exact absurd hE (by simp)

/-- Witness for C1 at the spec's concrete scenario (4-node graph,
fanout 1, uniform without replacement). -/
theorem c1_degree_bound_witness :
    aC1.replace = false ∧ aC1.return_eids = true ∧
    sampleNeighbors envC gC aC1
      = Except.ok ⟨[0, 1, 2, 3, 3], [1, 0, 0], some [0, 2, 4], none⟩ ∧
    0 < (resolvedNodes gC aC1).length ∧
    0 < (groupsOf gC aC1.type_per_edge aC1.fanouts ((resolvedNodes gC aC1).getD 0 0)).length ∧
    ((rowKept ⟨[0, 1, 2, 3, 3], [1, 0, 0], some [0, 2, 4], none⟩ 0).filter (fun p => decide
        (p ∈ ((groupsOf gC aC1.type_per_edge aC1.fanouts
          ((resolvedNodes gC aC1).getD 0 0)).getD 0 ([], 0)).1))).length
      ≤ (if ((groupsOf gC aC1.type_per_edge aC1.fanouts
              ((resolvedNodes gC aC1).getD 0 0)).getD 0 ([], 0)).2 = -1
         then ((groupsOf gC aC1.type_per_edge aC1.fanouts
              ((resolvedNodes gC aC1).getD 0 0)).getD 0 ([], 0)).1.length
         else min ((groupsOf gC aC1.type_per_edge aC1.fanouts
              ((resolvedNodes gC aC1).getD 0 0)).getD 0 ([], 0)).2.toNat
             ((groupsOf gC aC1.type_per_edge aC1.fanouts
              ((resolvedNodes gC aC1).getD 0 0)).getD 0 ([], 0)).1.length) :=
  ⟨rfl, rfl, rfl, by decide, by decide,
    c1_degree_bound envC gC aC1 _ 0 0 rfl rfl rfl (by decide) (by decide)⟩

/-- Witness for C2 at the spec's concrete scenario. -/
theorem c2_distinct_positions_witness :
    aC1.replace = false ∧ aC1.return_eids = true ∧
    sampleNeighbors envC gC aC1
      = Except.ok ⟨[0, 1, 2, 3, 3], [1, 0, 0], some [0, 2, 4], none⟩ ∧
    0 < (resolvedNodes gC aC1).length ∧
    (rowKept ⟨[0, 1, 2, 3, 3], [1, 0, 0], some [0, 2, 4], none⟩ 0).Nodup :=
  ⟨rfl, rfl, rfl, by decide,
    c2_distinct_positions envC gC aC1 _ 0 rfl rfl rfl (by decide)⟩

/-- Counterexample to C4 as stated: with `probs_or_mask = [0, 1]`,
fanout `-1` and `replace = false`, the kept row of node 0 is not the
node's full 2-edge in-neighbor slice — the zero-weight edge at position
0 is excluded (the header itself promises only the neighbors of
non-zero probability). -/
theorem c4_counterexample :
    aC4.fanouts = [-1] ∧ aC4.replace = false ∧
    sampleNeighbors envC gD aC4 = Except.ok ⟨[0, 1], [1], some [1], none⟩ ∧
    ¬ List.Perm (rowKept ⟨[0, 1], [1], some [1], none⟩ 0)
        (slicePositions gD ((resolvedNodes gD aC4).getD 0 0)) :=
  ⟨rfl, rfl, rfl, by decide⟩

/-- C4 (amended): for every seed node, fanout `-1` with
`replace = false` keeps exactly the node's eligible in-neighbor set —
all slice positions of nonzero weight, which is the full in-neighbor
set whenever `probs_or_mask` is absent — order-insensitive. -/
theorem c4_fanout_all (env : Env) (g : CSC) (a : Args) (s : FusedSampledSubgraph)
    (j : Nat)
    (hf : a.fanouts = [-1]) (hr : a.replace = false) (hret : a.return_eids = true)
    (hok : sampleNeighbors env g a = Except.ok s)
    (hj : j < (resolvedNodes g a).length) :
    List.Perm (rowKept s j) (eligSlice g a.probs_or_mask ((resolvedNodes g a).getD j 0)) :=
  row_perm_elig hok hret hr hf hj (Or.inl rfl)

/-- Witness for the amended C4 on the 2-node graph with a masked edge. -/
theorem c4_fanout_all_witness :
    aC4.fanouts = [-1] ∧ aC4.replace = false ∧ aC4.return_eids = true ∧
    sampleNeighbors envC gD aC4 = Except.ok ⟨[0, 1], [1], some [1], none⟩ ∧
    0 < (resolvedNodes gD aC4).length ∧
    List.Perm (rowKept ⟨[0, 1], [1], some [1], none⟩ 0)
      (eligSlice gD aC4.probs_or_mask ((resolvedNodes gD aC4).getD 0 0)) :=
  ⟨rfl, rfl, rfl, rfl, by decide,
    c4_fanout_all envC gD aC4 _ 0 rfl rfl rfl rfl (by decide)⟩

/-- C10: with `replace = false`, fanout `-1` keeps the same edge set for
a node as any non-negative fanout at least that node's degree — the two
kept rows are permutations of each other, even across different random
streams. -/
theorem c10_fanout_equiv (env₁ env₂ : Env) (g : CSC) (a : Args) (f : Int)
    (s₁ s₂ : FusedSampledSubgraph) (j : Nat)
    (hr : a.replace = false) (hret : a.return_eids = true) (hf : 0 ≤ f)
    (h₁ : sampleNeighbors env₁ g { a with fanouts := [-1] } = Except.ok s₁)
    (h₂ : sampleNeighbors env₂ g { a with fanouts := [f] } = Except.ok s₂)
    (hj : j < (resolvedNodes g a).length)
    (hdeg : degree g ((resolvedNodes g a).getD j 0) ≤ f.toNat) :
    List.Perm (rowKept s₁ j) (rowKept s₂ j) := by
  have p1 := row_perm_elig h₁ hret hr rfl hj (Or.inl rfl)
  have p2 := row_perm_elig h₂ hret hr rfl hj (Or.inr ⟨hf, hdeg⟩)
  exact p1.trans p2.symm

/-- Witness for C10 on the 2-node graph: fanout `-1` and fanout `2`
(at least the degree) keep the same edge set. -/
theorem c10_fanout_equiv_witness :
    aC10.replace = false ∧ aC10.return_eids = true ∧ (0 : Int) ≤ 2 ∧
    sampleNeighbors envC gD { aC10 with fanouts := [-1] }
      = Except.ok ⟨[0, 2], [0, 1], some [0, 1], none⟩ ∧
    sampleNeighbors envD gD { aC10 with fanouts := [(2 : Int)] }
      = Except.ok ⟨[0, 2], [0, 1], some [0, 1], none⟩ ∧
    0 < (resolvedNodes gD aC10).length ∧
    degree gD ((resolvedNodes gD aC10).getD 0 0) ≤ (2 : Int).toNat ∧
    List.Perm (rowKept ⟨[0, 2], [0, 1], some [0, 1], none⟩ 0)
      (rowKept ⟨[0, 2], [0, 1], some [0, 1], none⟩ 0) :=
  ⟨rfl, rfl, by decide, rfl, rfl, by decide, by decide,
    c10_fanout_equiv envC envD gD aC10 2 _ _ 0 rfl rfl (by decide) rfl rfl
      (by decide) (by decide)⟩

theorem selectGroup_env_layer {env₁ env₂ : Env} {g : CSC} {a : Args} {w : Nat → ℚ}
    {j gi : Nat} {cands : List Nat} {f : Int} (hl : a.layer = true)
    (hh1 : env₁.h1 = env₂.h1) (hh2 : env₁.h2 = env₂.h2) :
    selectGroup env₁ g a w j gi cands f = selectGroup env₂ g a w j gi cands f := by
  have hkey : laborKeyOf env₁ g a w = laborKeyOf env₂ g a w := by
    funext p
    unfold laborKeyOf blendOf
    rw [hh1, hh2]
  rw [selectGroup_eq_layer hl, selectGroup_eq_layer hl, hkey]

theorem selectGroup_env_nonlayer {env₁ env₂ : Env} {g : CSC} {a : Args} {w : Nat → ℚ}
    {j gi : Nat} {cands : List Nat} {f : Int} (hl : a.layer = false)
    (hrng : env₁.rng = env₂.rng) (hwk : env₁.wkey = env₂.wkey)
    (hvd : env₁.vdraw = env₂.vdraw) :
    selectGroup env₁ g a w j gi cands f = selectGroup env₂ g a w j gi cands f := by
  by_cases hp : a.probs_or_mask.isSome = true
  · by_cases hrep : a.replace = true
    · rw [selectGroup_eq_weighted_r hl hp hrep, selectGroup_eq_weighted_r hl hp hrep, hvd]
    · rw [selectGroup_eq_weighted_nr hl hp (bool_eq_false hrep),
        selectGroup_eq_weighted_nr hl hp (bool_eq_false hrep), hwk]
  · have hp' := bool_eq_false hp
    by_cases hrep : a.replace = true
    · rw [selectGroup_eq_uniform_r hl hp' hrep, selectGroup_eq_uniform_r hl hp' hrep, hrng]
    · rw [selectGroup_eq_uniform_nr hl hp' (bool_eq_false hrep),
        selectGroup_eq_uniform_nr hl hp' (bool_eq_false hrep), hrng]

theorem keptForNode_env {env₁ env₂ : Env} {g : CSC} {a : Args} {w : Nat → ℚ} {j i : Nat}
    (hs : ∀ gi cands f, selectGroup env₁ g a w j gi cands f
      = selectGroup env₂ g a w j gi cands f) :
    keptForNode env₁ g a w j i = keptForNode env₂ g a w j i := by
  unfold keptForNode
  have hgs : groupSelect env₁ g a w j i = groupSelect env₂ g a w j i := by
    funext gi
    unfold groupSelect
    exact hs _ _ _
  rw [hgs]

theorem sampleNeighbors_env_congr {env₁ env₂ : Env} {g : CSC} {a : Args}
    (hk : ∀ j i, keptForNode env₁ g a (wOf a.probs_or_mask) j i
      = keptForNode env₂ g a (wOf a.probs_or_mask) j i) :
    sampleNeighbors env₁ g a = sampleNeighbors env₂ g a := by
  unfold sampleNeighbors
  simp only [hk]

/-- C6: with `layer = true`, fixing the Labor hashes (hence the random
seed) makes the call independent of the ambient random streams —
repeated calls return identical outputs; non-layer strategies are
deterministic once the supplied random streams are fixed, independently
of the Labor hashes. -/
theorem c6_determinism :
    (∀ (env₁ env₂ : Env) (g : CSC) (a : Args), a.layer = true →
      env₁.h1 = env₂.h1 → env₁.h2 = env₂.h2 →
      sampleNeighbors env₁ g a = sampleNeighbors env₂ g a) ∧
    (∀ (env₁ env₂ : Env) (g : CSC) (a : Args), a.layer = false →
      env₁.rng = env₂.rng → env₁.wkey = env₂.wkey → env₁.vdraw = env₂.vdraw →
      sampleNeighbors env₁ g a = sampleNeighbors env₂ g a) := by
  constructor
  · intro env₁ env₂ g a hl hh1 hh2
    exact sampleNeighbors_env_congr
      (fun j i => keptForNode_env (fun gi cands f => selectGroup_env_layer hl hh1 hh2))
  · intro env₁ env₂ g a hl hrng hwk hvd
    exact sampleNeighbors_env_congr
      (fun j i => keptForNode_env
        (fun gi cands f => selectGroup_env_nonlayer hl hrng hwk hvd))

/-- Witness for C6: a concrete layer call on the scenario graph under
two environments sharing the hashes but with different ambient random
streams returns identical outputs. -/
theorem c6_determinism_witness :
    aC6.layer = true ∧ envC.h1 = envD.h1 ∧ envC.h2 = envD.h2 ∧
    sampleNeighbors envC gC aC6 = sampleNeighbors envD gC aC6 :=
  ⟨rfl, rfl, rfl, c6_determinism.1 envC envD gC aC6 rfl rfl rfl⟩

/-- The boolean configuration checker accepts exactly the
configurations outside the declarative bad set. -/
theorem configOk_iff_not_bad {g : CSC} {a : Args} :
    configOkB g a = true ↔ ¬ configBad g a := by
  constructor
  · intro h hbad
    unfold configOkB at h
    cases hpm : a.probs_or_mask with
    | none =>
      rw [hpm] at h
      simp only [Bool.and_eq_true, Bool.or_eq_true, beq_iff_eq, List.all_eq_true,
        decide_eq_true_eq, Bool.not_eq_true', Bool.and_eq_false_iff] at h
      obtain ⟨⟨⟨⟨h1, h2⟩, h3⟩, h4⟩, -⟩ := h
      rcases hbad with ⟨hb1, hb2⟩ | ⟨f, hf, hflt⟩ | ⟨hr, hl⟩ | ⟨hgt, hnone⟩ | ⟨ws, hws, -⟩
      · rcases h1 with h1 | h1
        · exact hb1 h1
        · exact hb2 h1
      · have := h2 f hf
        omega
      · rcases h3 with h3 | h3
        · simp [hr] at h3
        · simp [hl] at h3
      · rcases h4 with h4 | h4
        · omega
        · rw [hnone] at h4
          simp at h4
      · rw [hpm] at hws
        exact Option.noConfusion hws
    | some ws' =>
      rw [hpm] at h
      simp only [Bool.and_eq_true, Bool.or_eq_true, beq_iff_eq, List.all_eq_true,
        decide_eq_true_eq, Bool.not_eq_true', Bool.and_eq_false_iff] at h
      obtain ⟨⟨⟨⟨h1, h2⟩, h3⟩, h4⟩, h5⟩ := h
      rcases hbad with ⟨hb1, hb2⟩ | ⟨f, hf, hflt⟩ | ⟨hr, hl⟩ | ⟨hgt, hnone⟩ | ⟨ws, hws, hlen⟩
      · rcases h1 with h1 | h1
        · exact hb1 h1
        · exact hb2 h1
      · have := h2 f hf
        omega
      · rcases h3 with h3 | h3
        · simp [hr] at h3
        · simp [hl] at h3
      · rcases h4 with h4 | h4
        · omega
        · rw [hnone] at h4
          simp at h4
      · rw [hpm] at hws
        apply hlen
        rw [← Option.some.inj hws]
        exact h5
  · intro hnb
    unfold configBad at hnb
    push_neg at hnb
    obtain ⟨h1, h2, h3, h4, h5⟩ := hnb
    unfold configOkB
    cases hpm : a.probs_or_mask with
    | none =>
      simp only [Bool.and_eq_true, Bool.or_eq_true, beq_iff_eq, List.all_eq_true,
        decide_eq_true_eq, Bool.not_eq_true', Bool.and_eq_false_iff, and_true]
      refine ⟨⟨⟨?_, ?_⟩, ?_⟩, ?_⟩
      · by_cases hl1 : a.fanouts.length = 1
        · exact Or.inl hl1
        · exact Or.inr (h1 hl1)
      · intro f hf
        have := h2 f hf
        omega
      · by_cases hr : a.replace = true
        · exact Or.inr (bool_eq_false (h3 hr))
        · exact Or.inl (bool_eq_false hr)
      · by_cases hlen : 1 < a.fanouts.length
        · exact Or.inr (Option.isSome_iff_ne_none.mpr (h4 hlen))
        · exact Or.inl (by omega)
    | some ws' =>
      simp only [Bool.and_eq_true, Bool.or_eq_true, beq_iff_eq, List.all_eq_true,
        decide_eq_true_eq, Bool.not_eq_true', Bool.and_eq_false_iff]
      refine ⟨⟨⟨⟨?_, ?_⟩, ?_⟩, ?_⟩, ?_⟩
      · by_cases hl1 : a.fanouts.length = 1
        · exact Or.inl hl1
        · exact Or.inr (h1 hl1)
      · intro f hf
        have := h2 f hf
        omega
      · by_cases hr : a.replace = true
        · exact Or.inr (bool_eq_false (h3 hr))
        · exact Or.inl (bool_eq_false hr)
      · by_cases hlen : 1 < a.fanouts.length
        · exact Or.inr (Option.isSome_iff_ne_none.mpr (h4 hlen))
        · exact Or.inl (by omega)
      · exact h5 ws' hpm

/-- C7: `SampleNeighbors` fails with `ConfigError` (returning no
subgraph) exactly on the listed malformed configurations — fanouts
length neither 1 nor the number of distinct edge types, a fanout value
below `-1`, replacement combined with layer sampling, multiple fanouts
without `type_per_edge`, or a `probs_or_mask` length differing from the
edge count. -/
theorem c7_config_error_iff (env : Env) (g : CSC) (a : Args) :
    sampleNeighbors env g a = Except.error SampleError.ConfigError ↔ configBad g a := by
  constructor
  · intro h
    by_contra hnb
    have hc : configOkB g a = true := configOk_iff_not_bad.mpr hnb
    unfold sampleNeighbors at h
    rw [if_pos hc] at h
    by_cases hr : rangeOkB g a = true
    · rw [if_pos hr] at h
      exact Except.noConfusion h
    · rw [if_neg hr] at h
      exact SampleError.noConfusion (Except.error.inj h)
  · intro hbad
    have hc : configOkB g a = false := by
      cases hv : configOkB g a
      · rfl
      · exact absurd hbad (configOk_iff_not_bad.mp hv)
    unfold sampleNeighbors
    rw [hc]
    rfl

/-- Every assembled output is complete: `indptr` bracketing, aligned
edge ids exactly when requested, aligned types exactly when supplied. -/
theorem assemble_complete (g : CSC) (tpe : Option (List Nat)) (ret : Bool)
    (rows : List (List Nat)) :
    completeOutput rows.length ret tpe.isSome (assemble g tpe ret rows) := by
  unfold completeOutput
  refine ⟨?_, ?_, ?_, ?_, ?_⟩
  · rw [assemble_indptr, offsetsFrom_length]
  · rw [assemble_indptr]
    cases rows with
    | nil => rfl
    | cons r rs => rfl
  · rw [assemble_indptr, assemble_indices, offsetsFrom_length]
    simp only [Nat.add_sub_cancel]
    rw [offsetsFrom_getD 0 rows rows.length (Nat.le_refl _), List.take_length]
    simp [List.length_flatten, Function.comp_def, List.length_map]
  · rw [assemble_eids, assemble_indices]
    cases ret with
    | true => simp [Function.comp_def, List.length_map, List.length_flatten]
    | false => simp
  · rw [assemble_tpe, assemble_indices]
    cases tpe with
    | none => simp
    | some t => simp [Function.comp_def, List.length_map, List.length_flatten]

/-- C9: both entry points either fail with an error and produce no
subgraph, or fully succeed with a complete `FusedSampledSubgraph`
(validation precedes any output; the embedding is a pure function, so
inputs are read-only by construction). -/
theorem c9_total_validation :
    (∀ (env : Env) (g : CSC) (a : Args),
      (∃ e, sampleNeighbors env g a = Except.error e) ∨
      (∃ s, sampleNeighbors env g a = Except.ok s ∧
        completeOutput (resolvedNodes g a).length a.return_eids a.type_per_edge.isSome s)) ∧
    (∀ (g : CSC) (nodes : List Nat) (tpe : Option (List Nat)),
      (∃ e, inSubgraph g nodes tpe = Except.error e) ∨
      (∃ s, inSubgraph g nodes tpe = Except.ok s ∧
        completeOutput nodes.length true tpe.isSome s)) := by
  constructor
  · intro env g a
    unfold sampleNeighbors
    by_cases hc : configOkB g a = true
    · rw [if_pos hc]
      by_cases hr : rangeOkB g a = true
      · rw [if_pos hr]
        right
        refine ⟨_, rfl, ?_⟩
        have h := assemble_complete g a.type_per_edge a.return_eids
          ((List.range (resolvedNodes g a).length).map
            (fun j => keptForNode env g a (wOf a.probs_or_mask) j
              ((resolvedNodes g a).getD j 0)))
        simpa using h
      · rw [if_neg hr]
        exact Or.inl ⟨_, rfl⟩
    · rw [if_neg hc]
      exact Or.inl ⟨_, rfl⟩
  · intro g nodes tpe
    unfold inSubgraph
    by_cases hc : nodes.all (fun i => decide (i + 1 < g.indptr.length)) = true
    · rw [if_pos hc]
      right
      refine ⟨_, rfl, ?_⟩
      have h := assemble_complete g tpe true (nodes.map (slicePositions g))
      simpa using h
    · rw [if_neg hc]
      exact Or.inl ⟨_, rfl⟩

/-- C5: on a well-formed CSC graph and in-range node set, `InSubgraph`
returns exactly the union of the inbound edges of the requested nodes —
the original edge ids are exactly the absolute positions of those edges
(characterized by the `indptr` bounds), and the kept-edge count is the
sum of the true degrees. -/
theorem c5_insubgraph_complete (g : CSC) (nodes : List Nat) (tpe : Option (List Nat))
    (hwf : g.WellFormed) (hrange : ∀ i ∈ nodes, i + 1 < g.indptr.length) :
    ∃ s, inSubgraph g nodes tpe = Except.ok s ∧
      s.original_edge_ids = some (nodes.flatMap (slicePositions g)) ∧
      s.indices.length = (nodes.map (degree g)).sum ∧
      (∀ p, p ∈ nodes.flatMap (slicePositions g) ↔
        ∃ i ∈ nodes, g.indptr.getD i 0 ≤ p ∧ p < g.indptr.getD (i + 1) 0) := by
  have hc : nodes.all (fun i => decide (i + 1 < g.indptr.length)) = true := by
    rw [List.all_eq_true]
    intro i hi
    exact decide_eq_true (hrange i hi)
  refine ⟨_, by unfold inSubgraph; rw [if_pos hc], ?_, ?_, ?_⟩
  · rw [assemble_eids, if_pos rfl, List.flatMap_def]
  · rw [assemble_indices]
    simp only [List.length_map, List.length_flatten, List.map_map]
    congr 1
    apply List.map_congr_left
    intro i _
    exact slicePositions_length g i
  · intro p
    rw [List.mem_flatMap]
    constructor
    · rintro ⟨i, hi, hp⟩
      rw [mem_slicePositions] at hp
      obtain ⟨hp1, hp2⟩ := hp
      have hlt : i < g.indptr.length - 1 := by
        have := hrange i hi
        omega
      have hmono := hwf.2.2.1 i hlt
      refine ⟨i, hi, hp1, ?_⟩
      unfold degree at hp2
      omega
    · rintro ⟨i, hi, h1, h2⟩
      have hlt : i < g.indptr.length - 1 := by
        have := hrange i hi
        omega
      have hmono := hwf.2.2.1 i hlt
      refine ⟨i, hi, ?_⟩
      rw [mem_slicePositions]
      unfold degree
      omega

/-- Witness for C5 on the concrete scenario graph with nodes 0 and 3. -/
theorem c5_insubgraph_complete_witness :
    gC.WellFormed ∧ (∀ i ∈ [0, 3], i + 1 < gC.indptr.length) ∧
    (∃ s, inSubgraph gC [0, 3] none = Except.ok s ∧
      s.original_edge_ids = some ([0, 3].flatMap (slicePositions gC)) ∧
      s.indices.length = ([0, 3].map (degree gC)).sum ∧
      (∀ p, p ∈ [0, 3].flatMap (slicePositions gC) ↔
        ∃ i ∈ [0, 3], gC.indptr.getD i 0 ≤ p ∧ p < gC.indptr.getD (i + 1) 0)) :=
  ⟨by decide, by decide, c5_insubgraph_complete gC [0, 3] none (by decide) (by decide)⟩

/-- C8: the Labor priority key is a function of the shared random seed,
the blend coefficient, the destination id and the edge weight alone —
never of the seed-node set or the particular call — so calls sharing a
seed assign identical keys to a shared destination; and over a finite
space of hash values for the shared destination (the other keys held
fixed), the two selection events are nested threshold events, so the
probability that both calls keep the destination's edge is at least the
product of the marginals, the probability under independent uniform
sampling with the same fanouts. -/
theorem c8_labor_correlation :
    (∀ (env : Env) (g : CSC) (a₁ a₂ : Args) (w : Nat → ℚ) (p q : Nat),
      a₁.random_seed = a₂.random_seed →
      a₁.seed2_contribution = a₂.seed2_contribution →
      dstOf g p = dstOf g q → w p = w q →
      laborKeyOf env g a₁ w p = laborKeyOf env g a₂ w q) ∧
    (∀ (env : Env) (g : CSC) (a : Args) (w : Nat → ℚ) (d p : Nat),
      keyWithAt (blendOf env a.random_seed a.seed2_contribution) g w d
        (blendOf env a.random_seed a.seed2_contribution d) p
        = laborKeyOf env g a w p) ∧
    (∀ (base : Nat → ℚ) (g : CSC) (w : Nat → ℚ) (d k₁ k₂ : Nat)
        (cands₁ cands₂ : List Nat) (p₁ p₂ : Nat) (S : Finset ℚ),
      dstOf g p₁ = d → dstOf g p₂ = d →
      (∀ q ∈ cands₁, q ≠ p₁ → dstOf g q ≠ d) →
      (∀ q ∈ cands₂, q ≠ p₂ → dstOf g q ≠ d) →
      0 < w p₁ → 0 < w p₂ →
      (corrEvent base g w d k₁ cands₁ p₁ S).card
          * (corrEvent base g w d k₂ cands₂ p₂ S).card
        ≤ (corrEvent base g w d k₁ cands₁ p₁ S
            ∩ corrEvent base g w d k₂ cands₂ p₂ S).card * S.card) := by
  refine ⟨?_, ?_, ?_⟩
  · intro env g a₁ a₂ w p q hseed hc hd hw
    unfold laborKeyOf
    rw [hseed, hc, hd, hw]
  · intro env g a w d p
    unfold keyWithAt laborKeyOf
    by_cases hd : dstOf g p = d
    · rw [if_pos hd, hd]
    · rw [if_neg hd]
  · intro base g w d k₁ k₂ cands₁ cands₂ p₁ p₂ S hd₁ hd₂ ho₁ ho₂ hw₁ hw₂
    have hA : corrEvent base g w d k₁ cands₁ p₁ S ⊆ S := Finset.filter_subset _ _
    have hB : corrEvent base g w d k₂ cands₂ p₂ S ⊆ S := Finset.filter_subset _ _
    exact nested_card_ineq hA hB (corrEvent_nested hd₁ hd₂ ho₁ ho₂ hw₁ hw₂)

/-- Witness for C8: a shared destination between two concrete candidate
slices; the keys agree and the counting inequality holds on a 3-element
hash-value space. -/
theorem c8_labor_correlation_witness :
    dstOf gD 1 = 1 ∧ (∀ q ∈ [0, 1], q ≠ 1 → dstOf gD q ≠ 1) ∧ (0 : ℚ) < 1 ∧
    laborKeyOf envC gD aC6 (fun _ => 1) 1 = laborKeyOf envC gD aC6 (fun _ => 1) 1 ∧
    (corrEvent (fun n => (n : ℚ)) gD (fun _ => 1) 1 1 [0, 1] 1 {0, 1, 2}).card
        * (corrEvent (fun n => (n : ℚ)) gD (fun _ => 1) 1 1 [1] 1 {0, 1, 2}).card
      ≤ (corrEvent (fun n => (n : ℚ)) gD (fun _ => 1) 1 1 [0, 1] 1 {0, 1, 2}
          ∩ corrEvent (fun n => (n : ℚ)) gD (fun _ => 1) 1 1 [1] 1 {0, 1, 2}).card
        * ({0, 1, 2} : Finset ℚ).card :=
  ⟨by decide, by decide, by decide,
    c8_labor_correlation.1 envC gD aC6 aC6 (fun _ => 1) 1 1 rfl rfl rfl rfl,
    c8_labor_correlation.2.2 (fun n => (n : ℚ)) gD (fun _ => 1) 1 1 1 [0, 1] [1] 1 1
      {0, 1, 2} (by decide) (by decide) (by decide) (by decide) (by decide) (by decide)⟩

/-- Witness for C3: a weighted call on the concrete scenario graph with
two zero mask entries; the kept edge at position 0 has nonzero weight. -/
theorem c3_weighted_exclusion_witness :
    aC3.probs_or_mask = some [1, 0, 1, 1, 0, 1] ∧
    sampleNeighbors envC gC aC3
      = Except.ok ⟨[0, 1, 2, 3, 3], [1, 0, 1], some [0, 2, 5], none⟩ ∧
    (0 : Nat) ∈ [0, 2, 5] ∧
    ([1, 0, 1, 1, 0, 1] : List ℚ).getD 0 0 ≠ 0 :=
  ⟨rfl, rfl, by decide,
    c3_weighted_exclusion envC gC aC3 _ [1, 0, 1, 1, 0, 1] [0, 2, 5] 0 rfl rfl rfl
      (by decide)⟩

end Graphbolt
